import Mathlib

/-!
Verification of the query module and directory scanner of the
qmul-final-project repository (src/src-tauri/src/query/query.rs and
src/src-tauri/src/scan.rs), as a shallow embedding in Lean.

The external escaping utilities (`escape_fts5_string`, `escape_like_pattern`
from `crate::helpers::sql`) are not part of the sources; following the spec
they are treated as black-box pure functions, so every definition that uses
them is parametrised over them.
-/

namespace QueryRS

/-- `Symbol` from query.rs: a tag (`kick`) or a key-value pair
(`inpath:res/audio/`). -/
inductive Symbol where
  | Tag : String → Symbol
  | InPath : String → Symbol
deriving DecidableEq, Repr

/-- `QueryConversionError` from query.rs: the two per-kind conversion
errors. -/
inductive QueryConversionError where
  | NoAssociatedFTSString : QueryConversionError
  | NoAssociatedWhereClause : QueryConversionError
deriving DecidableEq, Repr

/-- `Symbol::to_fts_string`, parametrised over the external
`escape_fts5_string`. For `Tag(name)` it formats `tags:"{}"` around the
escaped name; for `InPath` it returns `Err(NoAssociatedFTSString)`. -/
def Symbol.to_fts_string (escape_fts5_string : String → String) :
    Symbol → Except QueryConversionError String
  | .Tag name => .ok ("tags:\"" ++ escape_fts5_string name ++ "\"")
  | .InPath _ => .error .NoAssociatedFTSString

/-- `Symbol::to_where_clause`, parametrised over the external
`escape_like_pattern`. For `InPath(path)` it formats
`path LIKE '{}' ESCAPE '\'` around the pattern escaped with `'\\'`; for
`Tag` it returns `Err(NoAssociatedWhereClause)`. -/
def Symbol.to_where_clause (escape_like_pattern : String → Char → String) :
    Symbol → Except QueryConversionError String
  | .Tag _ => .error .NoAssociatedWhereClause
  | .InPath path =>
      .ok ("path LIKE '" ++ escape_like_pattern path '\\' ++ "' ESCAPE '\\'")

/-- The raw string payload of a `Symbol` (the tag name or the path
pattern). -/
def Symbol.payload : Symbol → String
  | .Tag name => name
  | .InPath path => path

/-- A string that is empty after trimming whitespace, i.e. every character
is whitespace. -/
def isBlank (s : String) : Bool := s.data.all Char.isWhitespace

/-- `Expr` from query.rs: AND, OR, NOT over terms. Rust's `Box` ownership is
plain recursive ownership here. -/
inductive Expr where
  | And : Expr → Expr → Expr
  | Or : Expr → Expr → Expr
  | Not : Expr → Expr
  | Term : Symbol → Expr
deriving DecidableEq, Repr

/-- The children pushed by `ExprDFSIterator::next` for each node shape, in
push order: both children (left first) for `And`/`Or`, the single child for
`Not`, nothing for `Term`. -/
def Expr.children : Expr → List Expr
  | .And a b => [a, b]
  | .Or a b => [a, b]
  | .Not a => [a]
  | .Term _ => []

/-- Number of nodes of an expression tree. -/
def Expr.size : Expr → Nat
  | .And a b => a.size + b.size + 1
  | .Or a b => a.size + b.size + 1
  | .Not a => a.size + 1
  | .Term _ => 1

theorem Expr.size_pos (e : Expr) : 0 < e.size := by
  cases e <;> simp [Expr.size]

theorem Expr.children_size (e : Expr) :
    ((e.children.map Expr.size).sum) + 1 = e.size := by
  cases e <;> simp [Expr.children, Expr.size]

/-- Total node count of a queue of expressions. -/
def queueSize (q : List Expr) : Nat := (q.map Expr.size).sum

theorem queueSize_append (q r : List Expr) :
    queueSize (q ++ r) = queueSize q + queueSize r := by
  simp [queueSize]

theorem queueSize_cons (e : Expr) (q : List Expr) :
    queueSize (e :: q) = e.size + queueSize q := by
  simp [queueSize]


/-- The concatenation of the children of every expression in a queue, in
queue order. -/
def childrenOf : List Expr → List Expr
  | [] => []
  | e :: q => e.children ++ childrenOf q

theorem childrenOf_append (q r : List Expr) :
    childrenOf (q ++ r) = childrenOf q ++ childrenOf r := by
  induction q with
  | nil => simp [childrenOf]
  | cons e q ih => simp [childrenOf, ih]

theorem queueSize_childrenOf (q : List Expr) :
    queueSize (childrenOf q) + q.length = queueSize q := by
  induction q with
  | nil => simp [childrenOf, queueSize]
  | cons e q ih =>
      have h := Expr.children_size e
      simp only [childrenOf, queueSize_append, queueSize_cons, List.length_cons] at ih ⊢
      simp only [queueSize] at h ih ⊢
      omega

/-- One full run of `ExprDFSIterator`: repeatedly `pop_front` the `VecDeque`,
`push_back` the popped node's children, and yield the popped node, until the
queue is empty. The returned list is the sequence of yielded nodes. -/
def ExprDFSIterator.run : List Expr → List Expr
  | [] => []
  | e :: q => e :: ExprDFSIterator.run (q ++ e.children)
termination_by q => queueSize q
decreasing_by
  have h := Expr.children_size e
  simp only [queueSize_append, queueSize_cons]
  simp only [queueSize] at h ⊢
  omega

/-- The sequence of nodes yielded by `ExprDFSIterator::new(e)` iterated to
exhaustion. -/
def ExprDFSIterator.toList (e : Expr) : List Expr := ExprDFSIterator.run [e]

/-- All nodes of an expression tree, one entry per tree position, in
preorder. -/
def Expr.nodes : Expr → List Expr
  | .And a b => .And a b :: (a.nodes ++ b.nodes)
  | .Or a b => .Or a b :: (a.nodes ++ b.nodes)
  | .Not a => .Not a :: a.nodes
  | .Term s => [.Term s]

/-- All nodes of every tree in a queue, in queue order. -/
def nodesOf : List Expr → List Expr
  | [] => []
  | e :: q => e.nodes ++ nodesOf q

theorem nodesOf_append (q r : List Expr) :
    nodesOf (q ++ r) = nodesOf q ++ nodesOf r := by
  induction q with
  | nil => simp [nodesOf]
  | cons e q ih => simp [nodesOf, ih]

theorem Expr.nodes_eq (e : Expr) : e.nodes = e :: nodesOf e.children := by
  cases e <;> simp [Expr.nodes, Expr.children, nodesOf]

theorem ExprDFSIterator.run_append (q1 q2 : List Expr) :
    ExprDFSIterator.run (q1 ++ q2)
      = q1 ++ ExprDFSIterator.run (q2 ++ childrenOf q1) := by
  induction q1 generalizing q2 with
  | nil => simp [childrenOf]
  | cons e q ih =>
      show ExprDFSIterator.run (e :: (q ++ q2)) = _
      rw [ExprDFSIterator.run, List.append_assoc, ih (q2 ++ e.children)]
      simp [childrenOf, List.append_assoc]

theorem ExprDFSIterator.run_eq (q : List Expr) :
    ExprDFSIterator.run q = q ++ ExprDFSIterator.run (childrenOf q) := by
  simpa using ExprDFSIterator.run_append q []

/-- Reference breadth-first (level-order) enumeration, modelled from the
spec: emit the whole current level, then recurse on the concatenation of the
children of the level's nodes, with each node's left child enqueued before
its right child. -/
def levelOrderFrom : List Expr → List Expr
  | [] => []
  | e :: q => (e :: q) ++ levelOrderFrom (childrenOf (e :: q))
termination_by q => queueSize q
decreasing_by
  have h := queueSize_childrenOf (e :: q)
  simp only [List.length_cons] at h
  omega

/-- Reference breadth-first enumeration of a single expression tree. -/
def levelOrder (e : Expr) : List Expr := levelOrderFrom [e]

theorem run_eq_levelOrderFrom (q : List Expr) :
    ExprDFSIterator.run q = levelOrderFrom q := by
  match q with
  | [] => simp [ExprDFSIterator.run, levelOrderFrom]
  | e :: q' =>
      rw [ExprDFSIterator.run_eq (e :: q'),
        run_eq_levelOrderFrom (childrenOf (e :: q'))]
      simp [levelOrderFrom]
termination_by queueSize q
decreasing_by
  have h := queueSize_childrenOf (e :: q')
  simp only [List.length_cons] at h
  omega

theorem nodesOf_perm (q : List Expr) :
    (nodesOf q).Perm (q ++ nodesOf (childrenOf q)) := by
  induction q with
  | nil => simp [nodesOf, childrenOf]
  | cons e q ih =>
      simp only [nodesOf, childrenOf, Expr.nodes_eq, nodesOf_append,
        List.cons_append]
      refine List.Perm.cons e ?_
      exact (List.Perm.append_left _ ih).trans
        (List.perm_append_comm_assoc _ _ _)

theorem run_perm_nodesOf (q : List Expr) :
    (ExprDFSIterator.run q).Perm (nodesOf q) := by
  match q with
  | [] => simp [ExprDFSIterator.run, nodesOf]
  | e :: q' =>
      rw [ExprDFSIterator.run_eq (e :: q')]
      have ih := run_perm_nodesOf (childrenOf (e :: q'))
      exact ((List.Perm.append_left (e :: q') ih).trans
        (nodesOf_perm (e :: q')).symm)
termination_by queueSize q
decreasing_by
  have h := queueSize_childrenOf (e :: q')
  simp only [List.length_cons] at h
  omega

/-- Modelled from the spec: `CompiledPredicate`, the "backend-consumable
boolean expression (or equivalent structured form)" produced by Expression
compilation, which is absent from query.rs (only commented-out dead code).
Following spec §4.4, a leaf becomes an ordinary boolean predicate fragment —
a membership test against the full-text index's match results for `Tag`, a
pattern-match test on the path field for `InPath` — and AND/OR/NOT combine
fragments directly. -/
inductive CompiledPredicate where
  | ftsMember : String → CompiledPredicate
  | pathMatch : String → CompiledPredicate
  | and : CompiledPredicate → CompiledPredicate → CompiledPredicate
  | or : CompiledPredicate → CompiledPredicate → CompiledPredicate
  | not : CompiledPredicate → CompiledPredicate
deriving DecidableEq, Repr

/-- Modelled from the spec: the Expression-level compiler of §4.4, missing
from query.rs. Each Term compiles, independent of its position in the tree,
into a predicate fragment whose payload is escaped exactly once at the leaf
(the fragments' rendered text reuses the leaf renderings of `Symbol`'s
conversions); `And`/`Or`/`Not` translate directly and recursively. It is
total and parametrised over the two external escaping utilities. -/
def compile (escape_fts5_string : String → String)
    (escape_like_pattern : String → Char → String) : Expr → CompiledPredicate
  | .And l r =>
      .and (compile escape_fts5_string escape_like_pattern l)
        (compile escape_fts5_string escape_like_pattern r)
  | .Or l r =>
      .or (compile escape_fts5_string escape_like_pattern l)
        (compile escape_fts5_string escape_like_pattern r)
  | .Not e => .not (compile escape_fts5_string escape_like_pattern e)
  | .Term (.Tag name) =>
      .ftsMember ("tags:\"" ++ escape_fts5_string name ++ "\"")
  | .Term (.InPath p) =>
      .pathMatch ("path LIKE '" ++ escape_like_pattern p '\\'
        ++ "' ESCAPE '\\'")

/-- Sanity check: on the documented test query the iterator yields all
fourteen nodes. -/
example :
    (ExprDFSIterator.toList
      (.Or (.And (.And (.Term (.Tag "a")) (.Term (.Tag "b")))
                 (.And (.Not (.Term (.Tag "e"))) (.Term (.InPath "1"))))
           (.And (.Term (.Tag "d"))
                 (.And (.Term (.Tag "e")) (.Term (.InPath "0")))))).length
      = 14 := by
  simp [ExprDFSIterator.toList, ExprDFSIterator.run, Expr.children]

/-- C1: the claim that every leaf conversion succeeds is false in the code:
`to_fts_string` on an `InPath` term and `to_where_clause` on a `Tag` term
each return a per-kind error, shown here at concrete inputs. -/
theorem leaf_conversion_fails_on_wrong_kind :
    Symbol.to_fts_string id (Symbol.InPath "res/audio/")
        = .error .NoAssociatedFTSString
      ∧ Symbol.to_where_clause (fun s _ => s) (Symbol.Tag "kick")
        = .error .NoAssociatedWhereClause :=
  ⟨rfl, rfl⟩

/-- C1 (amended): each conversion is partial per kind. `to_fts_string`
succeeds exactly on `Tag` terms and returns `NoAssociatedFTSString` on
`InPath` terms; `to_where_clause` succeeds exactly on `InPath` terms and
returns `NoAssociatedWhereClause` on `Tag` terms — for every payload and
every choice of the external escaping utilities. -/
theorem leaf_conversions_partial_per_kind
    (escape_fts5_string : String → String)
    (escape_like_pattern : String → Char → String) :
    (∀ n : String,
      (∃ v, Symbol.to_fts_string escape_fts5_string (Symbol.Tag n) = .ok v)
      ∧ Symbol.to_where_clause escape_like_pattern (Symbol.Tag n)
          = .error .NoAssociatedWhereClause)
    ∧ (∀ p : String,
      (∃ v, Symbol.to_where_clause escape_like_pattern (Symbol.InPath p)
          = .ok v)
      ∧ Symbol.to_fts_string escape_fts5_string (Symbol.InPath p)
          = .error .NoAssociatedFTSString) :=
  ⟨fun _ => ⟨⟨_, rfl⟩, rfl⟩, fun _ => ⟨⟨_, rfl⟩, rfl⟩⟩

/-- C2: for every tag name `n` and every full-text escaping utility,
`to_fts_string (Tag n)` succeeds with exactly
`tags:"` ++ escaped `n` ++ `"`, the payload escaped exactly once and
nothing else applied. -/
theorem tag_to_fts_string_escapes_once
    (escape_fts5_string : String → String) (n : String) :
    Symbol.to_fts_string escape_fts5_string (Symbol.Tag n)
      = .ok ("tags:\"" ++ escape_fts5_string n ++ "\"") :=
  rfl

/-- C3: for every path pattern `p` and every pattern escaping utility,
`to_where_clause (InPath p)` succeeds with exactly
`path LIKE '` ++ `p` escaped once with the backslash escape character ++
`' ESCAPE '\'` — the escape character passed to the utility is the same
backslash named in the `ESCAPE` clause. -/
theorem inpath_to_where_clause_escapes_once
    (escape_like_pattern : String → Char → String) (p : String) :
    Symbol.to_where_clause escape_like_pattern (Symbol.InPath p)
      = .ok ("path LIKE '" ++ escape_like_pattern p '\\' ++ "' ESCAPE '\\'") :=
  rfl

/-- C4: the traversal iterator started at any root yields every node of the
tree exactly once and then yields nothing: its (finite) output sequence is a
permutation of the tree's node list. -/
theorem dfs_iterator_yields_each_node_exactly_once (e : Expr) :
    (ExprDFSIterator.toList e).Perm e.nodes := by
  simpa [ExprDFSIterator.toList, nodesOf] using run_perm_nodesOf [e]

/-- C5: despite its depth-first name, the queue-based (pop-front/push-back)
iterator yields the nodes of every tree in breadth-first (level) order with
siblings left-then-right: its output equals the reference level-order
enumeration. -/
theorem dfs_iterator_yields_breadth_first_order (e : Expr) :
    ExprDFSIterator.toList e = levelOrder e :=
  run_eq_levelOrderFrom [e]

/-- C6: the claim that no Term with an empty or whitespace-only payload can
be produced is false in the code: `Symbol`'s constructors perform no
validation, so `Tag ""` is a `Symbol` whose payload is empty after
trimming. -/
theorem empty_payload_symbol_constructible :
    ¬ (∀ s : Symbol, isBlank s.payload = false) :=
  fun h => absurd (h (Symbol.Tag "")) (by decide)

/-- C6 (amended): `Symbol` construction is unvalidated — terms with empty or
whitespace-only payloads are constructible — and the error type carries no
`InvalidTerm` variant, only the two per-kind conversion errors. -/
theorem symbol_constructors_unvalidated :
    isBlank (Symbol.Tag "").payload = true
    ∧ isBlank (Symbol.InPath " ").payload = true
    ∧ (∀ e : QueryConversionError,
        e = .NoAssociatedFTSString ∨ e = .NoAssociatedWhereClause) :=
  ⟨by decide, by decide, fun e => by cases e <;> simp⟩

/-- C7: compilation is deterministic and pure — for every Expression and
every leaf Term, the result depends only on the input tree and the
(pointwise) behaviour of the two stateless escaping utilities: equal inputs
under extensionally equal escapers give equal compiled predicates, for the
Expression compiler and for both leaf conversions. -/
theorem compilation_deterministic
    (escFts escFts' : String → String)
    (escLike escLike' : String → Char → String)
    (hFts : ∀ x, escFts x = escFts' x)
    (hLike : ∀ x c, escLike x c = escLike' x c) :
    (∀ e e' : Expr, e = e' →
      compile escFts escLike e = compile escFts' escLike' e')
    ∧ (∀ s s' : Symbol, s = s' →
      Symbol.to_fts_string escFts s = Symbol.to_fts_string escFts' s'
      ∧ Symbol.to_where_clause escLike s
          = Symbol.to_where_clause escLike' s') := by
  constructor
  · intro e e' he
    subst he
    induction e with
    | And l r ihl ihr => simp [compile, ihl, ihr]
    | Or l r ihl ihr => simp [compile, ihl, ihr]
    | Not a ih => simp [compile, ih]
    | Term s => cases s <;> simp [compile, hFts, hLike]
  · intro s s' hs
    subst hs
    constructor <;> cases s <;>
      simp [Symbol.to_fts_string, Symbol.to_where_clause, hFts, hLike]

/-- Witness for C7 at concrete inputs: a two-term tree and a leaf term. -/
theorem compilation_deterministic_witness :
    compile id (fun s _ => s)
        (Expr.And (.Term (.Tag "kick")) (.Not (.Term (.InPath "res/"))))
      = compile id (fun s _ => s)
        (Expr.And (.Term (.Tag "kick")) (.Not (.Term (.InPath "res/"))))
    ∧ (Symbol.to_fts_string id (Symbol.Tag "kick")
        = Symbol.to_fts_string id (Symbol.Tag "kick")
      ∧ Symbol.to_where_clause (fun s _ => s) (Symbol.Tag "kick")
        = Symbol.to_where_clause (fun s _ => s) (Symbol.Tag "kick")) :=
  ⟨(compilation_deterministic id id (fun s _ => s) (fun s _ => s)
      (fun _ => rfl) (fun _ _ => rfl)).1 _ _ rfl,
   (compilation_deterministic id id (fun s _ => s) (fun s _ => s)
      (fun _ => rfl) (fun _ _ => rfl)).2 _ _ rfl⟩

end QueryRS

namespace ScanRS

/-- `ScanError` from scan.rs. The `std::io::Error` payload of `IOError` does
not affect control flow and is dropped. -/
inductive ScanError where
  | NotADirectory : ScanError
  | IOError : ScanError
deriving DecidableEq, Repr

/-- A filesystem entry as scan.rs observes it: `entry.metadata()` either
fails (`metaErr`), reports a non-directory (`file`), or reports a directory
(`dir`) whose later `fs::read_dir` either fails (`dir _ none`) or yields the
listed child entries in iteration order (`dir _ (some es)`). -/
inductive FSEntry where
  | file : String → FSEntry
  | metaErr : String → FSEntry
  | dir : String → Option (List FSEntry) → FSEntry

/-- The outcome `fs::read_dir` will produce for a directory on the to-scan
worklist: `none` when the read fails, otherwise the child entries (per-entry
read errors already dropped by `.flatten()`). -/
abbrev DirRead := Option (List FSEntry)

/-- `classify_dir_items` from scan.rs: walk the incoming entries in order; an
entry whose metadata cannot be read is skipped, a directory is pushed onto
the to-scan list, any other entry's path is pushed onto the items list.
Returns the pushed item paths and the pushed directories, in push order. -/
def classify_dir_items : List FSEntry → List String × List DirRead
  | [] => ([], [])
  | .file p :: rest =>
      let r := classify_dir_items rest
      (p :: r.1, r.2)
  | .metaErr _ :: rest => classify_dir_items rest
  | .dir _ rd :: rest =>
      let r := classify_dir_items rest
      (r.1, rd :: r.2)

mutual
/-- Size of the tree below one filesystem entry (termination measure). -/
def FSEntry.weight : FSEntry → Nat
  | .file _ => 1
  | .metaErr _ => 1
  | .dir _ rd => 1 + readWeight rd

/-- Size of the tree below one worklist element. -/
def readWeight : Option (List FSEntry) → Nat
  | none => 1
  | some es => 1 + entriesWeight es

/-- Size of the trees below a list of entries. -/
def entriesWeight : List FSEntry → Nat
  | [] => 0
  | e :: es => e.weight + entriesWeight es
end

/-- Combined size of the directory trees still reachable from a worklist. -/
def worklistWeight (wl : List DirRead) : Nat := (wl.map readWeight).sum

theorem classify_dirs_weight (es : List FSEntry) :
    worklistWeight (classify_dir_items es).2 ≤ entriesWeight es := by
  induction es with
  | nil => simp [classify_dir_items, worklistWeight]
  | cons e rest ih =>
      cases e <;>
        simp [classify_dir_items, worklistWeight, entriesWeight,
          FSEntry.weight] at ih ⊢ <;> omega

/-- The scan loop of `scan_dir`, on the reversed worklist (list head = most
recently pushed directory = the one `Vec::pop` removes). Each iteration pops
one directory; if its `fs::read_dir` failed it is skipped (`if let Ok`),
otherwise its entries are classified: discovered item paths are appended to
`items` and discovered directories are pushed, in Vec push order. -/
def scanLoopRev : List DirRead → List String → List String
  | [], items => items
  | none :: rev, items => scanLoopRev rev items
  | some es :: rev, items =>
      scanLoopRev ((classify_dir_items es).2.reverse ++ rev)
        (items ++ (classify_dir_items es).1)
termination_by wl _ => worklistWeight wl
decreasing_by
  · simp [worklistWeight, readWeight]
  · have h := classify_dirs_weight es
    simp [worklistWeight, readWeight, List.map_reverse, List.sum_reverse]
      at h ⊢
    omega

/-- The scan loop on a worklist in Vec order (last element = top of the
stack, i.e. the next one popped). -/
def scanLoop (wl : List DirRead) (items : List String) : List String :=
  scanLoopRev wl.reverse items

/-- `scan_dir` from scan.rs on the model filesystem: fail with `IOError`
when the root's metadata cannot be read, with `NotADirectory` when it is not
a directory, with `IOError` when the initial `read_dir` fails; otherwise
classify the root's entries and drain the worklist. -/
def scan_dir : FSEntry → Except ScanError (List String)
  | .metaErr _ => .error .IOError
  | .file _ => .error .NotADirectory
  | .dir _ none => .error .IOError
  | .dir _ (some es) =>
      .ok (scanLoop (classify_dir_items es).2 (classify_dir_items es).1)

/-- A path names a `file` (non-directory) entry somewhere inside a list of
entries, at any depth. -/
inductive fileWithin : List FSEntry → String → Prop where
  | here {es : List FSEntry} {p : String} :
      FSEntry.file p ∈ es → fileWithin es p
  | deeper {es : List FSEntry} {p q : String} {sub : List FSEntry} :
      FSEntry.dir q (some sub) ∈ es → fileWithin sub p → fileWithin es p

/-- A path names a `file` entry somewhere inside the tree rooted at an
entry. -/
def FSEntry.hasFileAt : FSEntry → String → Prop
  | .file q, p => q = p
  | .metaErr _, _ => False
  | .dir _ none, _ => False
  | .dir _ (some es), p => fileWithin es p

/-- A path names a `file` entry below a worklist element. -/
def readHasFile : DirRead → String → Prop
  | none, _ => False
  | some es, p => fileWithin es p

theorem classify_files_mem {es : List FSEntry} {p : String}
    (h : p ∈ (classify_dir_items es).1) : FSEntry.file p ∈ es := by
  induction es with
  | nil => simp [classify_dir_items] at h
  | cons e rest ih =>
      cases e with
      | file q =>
          simp only [classify_dir_items, List.mem_cons] at h
          rcases h with h | h
          · subst h; exact List.mem_cons_self _ _
          · exact List.mem_cons_of_mem _ (ih h)
      | metaErr q =>
          exact List.mem_cons_of_mem _ (ih h)
      | dir q rd =>
          exact List.mem_cons_of_mem _ (ih h)

theorem classify_dirs_mem {es : List FSEntry} {rd : DirRead}
    (h : rd ∈ (classify_dir_items es).2) : ∃ q, FSEntry.dir q rd ∈ es := by
  induction es with
  | nil => simp [classify_dir_items] at h
  | cons e rest ih =>
      cases e with
      | file q =>
          obtain ⟨q', hq'⟩ := ih h
          exact ⟨q', List.mem_cons_of_mem _ hq'⟩
      | metaErr q =>
          obtain ⟨q', hq'⟩ := ih h
          exact ⟨q', List.mem_cons_of_mem _ hq'⟩
      | dir q rd' =>
          simp only [classify_dir_items, List.mem_cons] at h
          rcases h with h | h
          · subst h; exact ⟨q, List.mem_cons_self _ _⟩
          · obtain ⟨q', hq'⟩ := ih h
            exact ⟨q', List.mem_cons_of_mem _ hq'⟩

theorem scanLoopRev_sound (wl : List DirRead) (acc : List String)
    (P : String → Prop) (hacc : ∀ p ∈ acc, P p)
    (hwl : ∀ rd ∈ wl, ∀ p, readHasFile rd p → P p) :
    ∀ p ∈ scanLoopRev wl acc, P p := by
  match wl with
  | [] => simpa [scanLoopRev] using hacc
  | none :: rev =>
      simp only [scanLoopRev]
      exact scanLoopRev_sound rev acc P hacc
        (fun rd h => hwl rd (List.mem_cons_of_mem _ h))
  | some es :: rev =>
      simp only [scanLoopRev]
      refine scanLoopRev_sound _ _ P ?_ ?_
      · intro p hp
        rcases List.mem_append.1 hp with h | h
        · exact hacc p h
        · exact hwl (some es) (List.mem_cons_self _ _) p
            (fileWithin.here (classify_files_mem h))
      · intro rd hrd p hp
        rcases List.mem_append.1 hrd with h | h
        · obtain ⟨q, hq⟩ := classify_dirs_mem (List.mem_reverse.1 h)
          cases rd with
          | none => exact absurd hp (by simp [readHasFile])
          | some sub =>
              exact hwl (some es) (List.mem_cons_self _ _) p
                (fileWithin.deeper hq hp)
        · exact hwl rd (List.mem_cons_of_mem _ h) p hp
termination_by worklistWeight wl
decreasing_by
  · simp [worklistWeight, readWeight]
  · have h := classify_dirs_weight es
    simp [worklistWeight, readWeight, List.map_reverse, List.sum_reverse]
      at h ⊢
    omega

/-- Fuel-indexed small-step version of the scan loop (reversed worklist):
one unit of fuel per loop iteration; `none` when fuel runs out before the
worklist empties. -/
def scanLoopFuelRev : Nat → List DirRead → List String → Option (List String)
  | _, [], items => some items
  | 0, _ :: _, _ => none
  | n + 1, none :: rev, items => scanLoopFuelRev n rev items
  | n + 1, some es :: rev, items =>
      scanLoopFuelRev n ((classify_dir_items es).2.reverse ++ rev)
        (items ++ (classify_dir_items es).1)

/-- Fuel-indexed scan loop on a worklist in Vec order. -/
def scanLoopFuel (n : Nat) (wl : List DirRead) (items : List String) :
    Option (List String) :=
  scanLoopFuelRev n wl.reverse items

/-- Number of iterations the scan loop performs from a reversed worklist:
one pop per directory ever on the worklist, including every directory
discovered along the way. -/
def popCountRev : List DirRead → Nat
  | [] => 0
  | none :: rev => popCountRev rev + 1
  | some es :: rev =>
      popCountRev ((classify_dir_items es).2.reverse ++ rev) + 1
termination_by wl => worklistWeight wl
decreasing_by
  · simp [worklistWeight, readWeight]
  · have h := classify_dirs_weight es
    simp [worklistWeight, readWeight, List.map_reverse, List.sum_reverse]
      at h ⊢
    omega

/-- Number of iterations the scan loop performs from a worklist in Vec
order. -/
def popCount (wl : List DirRead) : Nat := popCountRev wl.reverse

theorem scanLoopFuelRev_complete (rev : List DirRead) (items : List String) :
    scanLoopFuelRev (popCountRev rev) rev items
      = some (scanLoopRev rev items) := by
  match rev with
  | [] => simp [scanLoopFuelRev, popCountRev, scanLoopRev]
  | none :: r =>
      simp only [popCountRev, scanLoopFuelRev, scanLoopRev]
      exact scanLoopFuelRev_complete r items
  | some es :: r =>
      simp only [popCountRev, scanLoopFuelRev, scanLoopRev]
      exact scanLoopFuelRev_complete _ _
termination_by worklistWeight rev
decreasing_by
  · simp [worklistWeight, readWeight]
  · have h := classify_dirs_weight es
    simp [worklistWeight, readWeight, List.map_reverse, List.sum_reverse]
      at h ⊢
    omega

theorem scanLoop_pop_failed (wl : List DirRead) (items : List String) :
    scanLoop (wl ++ [none]) items = scanLoop wl items := by
  simp [scanLoop, List.reverse_append, scanLoopRev]

theorem scanLoop_pop_last (wl : List DirRead) (es : List FSEntry)
    (items : List String) :
    scanLoop (wl ++ [some es]) items
      = scanLoop (wl ++ (classify_dir_items es).2)
          (items ++ (classify_dir_items es).1) := by
  simp [scanLoop, List.reverse_append, scanLoopRev]

/-- C8: every path in the `Ok` vector returned by `scan_dir` names a `file`
(non-directory) entry of the scanned tree — directory entries go only onto
the to-scan list, never into the items list. -/
theorem scan_dir_items_are_files (root : FSEntry) (items : List String)
    (h : scan_dir root = .ok items) :
    ∀ p ∈ items, root.hasFileAt p := by
  cases root with
  | file q => simp [scan_dir] at h
  | metaErr q => simp [scan_dir] at h
  | dir q rd =>
      cases rd with
      | none => simp [scan_dir] at h
      | some es =>
          simp only [scan_dir, Except.ok.injEq] at h
          subst h
          intro p hp
          show fileWithin es p
          refine scanLoopRev_sound _ _ (fileWithin es) ?_ ?_ p
            (by simpa [scanLoop] using hp)
          · intro p' hp'
            exact fileWithin.here (classify_files_mem hp')
          · intro rd hrd p' hp'
            obtain ⟨q', hq'⟩ := classify_dirs_mem (List.mem_reverse.1 hrd)
            cases rd with
            | none => exact absurd hp' (by simp [readHasFile])
            | some sub => exact fileWithin.deeper hq' hp'

/-- Witness for C8: scanning a concrete tree with one file, one subdirectory
holding a file, and one unreadable entry returns exactly the two file paths,
and the first returned path names a file of the tree. -/
theorem scan_dir_items_are_files_witness :
    scan_dir (.dir "r" (some [.file "r/a",
        .dir "r/d" (some [.file "r/d/b"]), .metaErr "r/m"]))
      = .ok ["r/a", "r/d/b"]
    ∧ (FSEntry.dir "r" (some [.file "r/a",
        .dir "r/d" (some [.file "r/d/b"]), .metaErr "r/m"])).hasFileAt "r/a" := by
  constructor
  · simp [scan_dir, scanLoop, scanLoopRev, classify_dir_items]
  · exact scan_dir_items_are_files _ ["r/a", "r/d/b"]
      (by simp [scan_dir, scanLoop, scanLoopRev, classify_dir_items])
      "r/a" (by simp)

/-- C9: `scan_dir` fails only up front — `IOError` when the root's metadata
cannot be read, `NotADirectory` when the root is not a directory, `IOError`
when the initial directory read fails — and once the initial read succeeds
it always returns `Ok`, whatever entries (failed subdirectory reads,
unreadable metadata) the tree contains. -/
theorem scan_dir_fails_only_up_front :
    (∀ p, scan_dir (.metaErr p) = .error .IOError)
    ∧ (∀ p, scan_dir (.file p) = .error .NotADirectory)
    ∧ (∀ p, scan_dir (.dir p none) = .error .IOError)
    ∧ (∀ p es, ∃ items, scan_dir (.dir p (some es)) = .ok items) :=
  ⟨fun _ => rfl, fun _ => rfl, fun _ => rfl, fun _ _ => ⟨_, rfl⟩⟩

/-- C10: the to-scan worklist is processed last-in-first-out and the loop
terminates. Each iteration removes exactly the most recently pushed
directory (the last element of the worklist), pushes only the directories
discovered inside it, and from any worklist the loop halts after exactly
`popCount` iterations — one pop per directory ever on the worklist — with
the fuel-indexed loop reaching the same result as the total one. -/
theorem scan_worklist_lifo_and_terminates :
    (∀ wl items,
      scanLoop (wl ++ [(none : DirRead)]) items = scanLoop wl items)
    ∧ (∀ wl es items,
        scanLoop (wl ++ [some es]) items
          = scanLoop (wl ++ (classify_dir_items es).2)
              (items ++ (classify_dir_items es).1))
    ∧ (∀ wl items,
        scanLoopFuel (popCount wl) wl items = some (scanLoop wl items)) :=
  ⟨scanLoop_pop_failed, scanLoop_pop_last,
   fun wl items => scanLoopFuelRev_complete wl.reverse items⟩

end ScanRS
